import Mathlib

/-!
Verification of the ClearBlade go-iot SDK core against its specification.

The development shallowly embeds, in Lean:
* the path-template engine (`cblib/path_template`): matchers, `Match`,
  `Render`, and the recursive-descent template parser;
* the per-registry credential resolution (`GetRegistryCredentials` in
  `iot.go`) over an abstract network environment;
* the HTTP error-envelope classification (`createHTTPError`) and the
  call builders' terminal `Do` operations over an abstract transport;
* the list-response decoding and the `Pages` page-iteration helper.

Go strings are embedded as Lean `String`; Go maps `map[string]T` as
association lists with lookup/insert helpers; Go's multiple-return
`(T, error)` as `Except`.
-/

namespace GoIot

/-- Lookup in an association list, embedding Go's `m[k]` map read
(`none` when the key is absent). -/
def listGet {α : Type} (l : List (String × α)) (k : String) : Option α :=
  (l.find? (fun p => p.1 = k)).map (fun p => p.2)

/-- Insert/replace in an association list, embedding Go's `m[k] = v`. -/
def listSet {α : Type} : List (String × α) → String → α → List (String × α)
  | [], k, v => [(k, v)]
  | (k', v') :: rest, k, v =>
    if k' = k then (k, v) :: rest else (k', v') :: listSet rest k v

theorem listGet_listSet_self {α : Type} (l : List (String × α)) (k : String) (v : α) :
    listGet (listSet l k v) k = some v := by
  induction l with
  | nil => simp [listGet, listSet]
  | cons p rest ih =>
    obtain ⟨k', v'⟩ := p
    by_cases h : k' = k
    · simp [listGet, listSet, h, List.find?]
    · simpa [listGet, listSet, h, List.find?] using ih

theorem listGet_listSet_ne {α : Type} (l : List (String × α)) (k k' : String) (v : α)
    (h : k' ≠ k) : listGet (listSet l k v) k' = listGet l k' := by
  induction l with
  | nil => simp [listGet, listSet, List.find?, Ne.symm h]
  | cons p rest ih =>
    obtain ⟨k0, v0⟩ := p
    by_cases h0 : k0 = k
    · subst h0
      simp [listGet, listSet, List.find?, Ne.symm h]
    · by_cases h1 : k0 = k'
      · subst h1
        simp [listGet, listSet, h0, List.find?]
      · simpa [listGet, listSet, h0, List.find?, h1] using ih

/-- Embeds Go's `strings.Join(xs, "/")`. -/
def joinSlash : List String → String
  | [] => ""
  | [x] => x
  | x :: y :: rest => x ++ "/" ++ joinSlash (y :: rest)

theorem joinSlash_cons_cons (x y : String) (rest : List String) :
    joinSlash (x :: y :: rest) = x ++ "/" ++ joinSlash (y :: rest) := rfl

theorem joinSlash_append (a b : List String) (ha : a ≠ []) (hb : b ≠ []) :
    joinSlash (a ++ b) = joinSlash a ++ "/" ++ joinSlash b := by
  induction a with
  | nil => exact absurd rfl ha
  | cons x xs ih =>
    cases xs with
    | nil =>
      cases b with
      | nil => exact absurd rfl hb
      | cons y ys => simp [joinSlash]
    | cons x' xs' =>
      have h := ih (by simp)
      simp only [List.cons_append, joinSlash_cons_cons] at *
      rw [h]
      simp [String.append_assoc]

/-- Character-level worker for `splitSlash`; embeds `strings.Split(s, "/")`
(which never returns an empty list). -/
def splitSlashAux : List Char → List (List Char)
  | [] => [[]]
  | c :: cs =>
    match splitSlashAux cs with
    | [] => [[c]]
    | s :: rest => if c = '/' then [] :: s :: rest else (c :: s) :: rest

/-- Embeds Go's `strings.Split(path, "/")`. -/
def splitSlash (s : String) : List String :=
  (splitSlashAux s.data).map (fun l => String.mk l)

theorem splitSlashAux_ne_nil (l : List Char) : splitSlashAux l ≠ [] := by
  cases l with
  | nil => simp [splitSlashAux]
  | cons c cs =>
    simp only [splitSlashAux]
    match h : splitSlashAux cs with
    | [] => simp
    | s :: rest =>
      by_cases hc : c = '/' <;> simp [hc]

/-- Character-level join mirroring `joinSlash`. -/
def joinSlashAux : List (List Char) → List Char
  | [] => []
  | [x] => x
  | x :: y :: rest => x ++ '/' :: joinSlashAux (y :: rest)

theorem joinSlashAux_splitSlashAux (l : List Char) :
    joinSlashAux (splitSlashAux l) = l := by
  induction l with
  | nil => rfl
  | cons c cs ih =>
    simp only [splitSlashAux]
    match h : splitSlashAux cs with
    | [] => exact absurd h (splitSlashAux_ne_nil cs)
    | s :: rest =>
      rw [h] at ih
      by_cases hc : c = '/'
      · subst hc
        simp only [if_pos rfl]
        cases rest with
        | nil => simp [joinSlashAux] at ih ⊢; exact ih
        | cons r rs => simp [joinSlashAux] at ih ⊢; exact ih
      · simp only [if_neg hc]
        cases rest with
        | nil => simp [joinSlashAux] at ih ⊢; exact ih
        | cons r rs =>
          simp only [joinSlashAux] at ih ⊢
          simpa using ih

theorem joinSlash_map_mk (ls : List (List Char)) :
    joinSlash (ls.map (fun l => String.mk l)) = String.mk (joinSlashAux ls) := by
  induction ls with
  | nil => rfl
  | cons x xs ih =>
    cases xs with
    | nil => rfl
    | cons y ys =>
      simp only [List.map_cons, joinSlash_cons_cons, joinSlashAux] at *
      rw [ih]
      apply String.ext
      simp [String.data_append]

/-- Splitting on `/` and re-joining with `/` is the identity, as for
Go's `strings.Join(strings.Split(s, "/"), "/")`. -/
theorem joinSlash_splitSlash (s : String) : joinSlash (splitSlash s) = s := by
  rw [splitSlash, joinSlash_map_mk, joinSlashAux_splitSlashAux]

/-! ## Path template engine: data model, `Match`, `Render`
(embedding `cblib/path_template`) -/

/-- The three matcher shapes of the template engine: `labelMatcher`,
`wildcardMatcher`, and `pathWildcardMatcher` (whose `Int` payload is
always `≥ 0` in the source: the parser creates it as `0` and the
back-patch sets it to `len(segs)-i-1` with `i < len(segs)`). -/
inductive Matcher where
  | label (s : String)
  | wildcard
  | pathWildcard (n : Nat)
deriving DecidableEq, Repr

/-- Embeds the `match` methods of the three matcher types: the number of
leading candidate segments consumed, or an error. -/
def Matcher.matchSegs : Matcher → List String → Except String Nat
  | .label s, paths =>
    match paths with
    | [] => .error ("expected " ++ s ++ " but no more segments found")
    | p :: _ => if p = s then .ok 1 else .error ("expected " ++ s ++ " but got " ++ p)
  | .wildcard, paths =>
    match paths with
    | [] => .error "no more segments found"
    | _ :: _ => .ok 1
  | .pathWildcard n, paths =>
    if paths.length ≤ n then .error "not sufficient segments are supplied for path wildcard"
    else .ok (paths.length - n)

/-- Embeds the `String()` methods of the matcher types. -/
def Matcher.render : Matcher → String
  | .label s => s
  | .wildcard => "*"
  | .pathWildcard _ => "**"

/-- One template segment: a matcher plus an optional variable name
(`""` = unnamed), embedding the source's `segment` struct. -/
structure Segment where
  matcher : Matcher
  name : String
deriving DecidableEq, Repr

/-- Embeds `PathTemplate`. -/
structure PathTemplate where
  segments : List Segment
deriving DecidableEq, Repr

/-- The variable bindings produced by `Match` (Go: `map[string]string`). -/
abbrev Values := List (String × String)

/-- Embeds the per-segment update in `Match`: concatenate with `/` when
the name already has a value, else insert. -/
def updateVal (vs : Values) (k v : String) : Values :=
  match listGet vs k with
  | some old => listSet vs k (old ++ "/" ++ v)
  | none => listSet vs k v

/-- The loop body of `PathTemplate.Match` without the final
trailing-path check: walk the segments, consuming candidate segments
and recording bindings; returns the unconsumed candidate segments. -/
def consumeLoop : List Segment → List String → Values → Except String (List String × Values)
  | [], paths, vs => .ok (paths, vs)
  | seg :: rest, paths, vs =>
    match seg.matcher.matchSegs paths with
    | .error e => .error e
    | .ok len =>
      let vs' := if seg.name = "" then vs
        else updateVal vs seg.name (joinSlash (paths.take len))
      consumeLoop rest (paths.drop len) vs'

/-- The full loop of `PathTemplate.Match` including the trailing-path
check. -/
def matchLoop (segs : List Segment) (paths : List String) (vs : Values) :
    Except String Values :=
  match consumeLoop segs paths vs with
  | .error e => .error e
  | .ok (paths', vs') =>
    if paths'.isEmpty then .ok vs'
    else .error ("Trailing path " ++ joinSlash paths' ++ " remains after the matching")

/-- Embeds `PathTemplate.Match`. -/
def PathTemplate.Match (pt : PathTemplate) (path : String) : Except String Values :=
  matchLoop pt.segments (splitSlash path) []

/-- The loop of `PathTemplate.Render`: walk segments, skipping a
segment whose (nonempty) name equals the previous emitted segment's
name, emitting literal text for unnamed segments and binding values for
named ones. -/
def renderLoop : List Segment → Values → String → Except String (List String)
  | [], _, _ => .ok []
  | seg :: rest, binding, lastVar =>
    if lastVar ≠ "" ∧ seg.name = lastVar then renderLoop rest binding lastVar
    else
      match (if seg.name = "" then .ok seg.matcher.render
             else match listGet binding seg.name with
                  | some v => .ok v
                  | none => .error (seg.name ++ " is not found") : Except String String) with
      | .error e => .error e
      | .ok piece =>
        match renderLoop rest binding seg.name with
        | .error e => .error e
        | .ok pieces => .ok (piece :: pieces)

/-- Embeds `PathTemplate.Render`. -/
def PathTemplate.Render (pt : PathTemplate) (binding : Values) : Except String String :=
  match renderLoop pt.segments binding "" with
  | .error e => .error e
  | .ok pieces => .ok (joinSlash pieces)

/-! ## Path template parser
(embedding `pathTemplateParser` / `parsePathTemplate`) -/

/-- Embeds `ParseError`. -/
structure ParseError where
  Pos : Nat
  Template : String
  Message : String
deriving DecidableEq, Repr

/-- Parser state, embedding the fields of `pathTemplateParser`: the
unread input runes, the rune count, the next unnamed-variable number,
the set of seen variable names, and the seen-`**` flag. -/
structure PState where
  input : List Char
  runeCount : Nat
  nextVar : Nat
  seenName : List String
  seenPW : Bool
deriving DecidableEq, Repr

/-- A parser error, as "thrown" by `pathTemplateParser.error`: the
message plus the rune count at the throw site (used for
`ParseError.Pos`). -/
abbrev PErr := String × Nat

/-- Embeds `pathTemplateParser.consume`: consume the next rune if it is
`c` (a failed attempt reads and then unreads, leaving the state
unchanged). -/
def pConsume (c : Char) (s : PState) : Bool × PState :=
  match s.input with
  | [] => (false, s)
  | c' :: rest =>
    if c' = c then (true, { s with input := rest, runeCount := s.runeCount + 1 })
    else (false, s)

/-- The stop runes of `literal`: `/`, `*`, `}`, `{`, `=`. -/
def isStopRune (c : Char) : Bool :=
  c = '/' || c = '*' || c = Char.ofNat 125 || c = Char.ofNat 123 || c = '='

/-- Split the input at the first stop rune. -/
def takeUntilStop : List Char → List Char × List Char
  | [] => ([], [])
  | c :: cs =>
    if isStopRune c then ([], c :: cs)
    else
      match takeUntilStop cs with
      | (a, b) => (c :: a, b)

/-- Embeds `consumeUntil("/*}{=")` followed by the empty-literal check
of `literal`. -/
def pLiteral (s : PState) : Except PErr (String × PState) :=
  match takeUntilStop s.input with
  | (lit, rest) =>
    let s1 : PState := { s with input := rest, runeCount := s.runeCount + lit.length }
    if lit.isEmpty then .error ("empty literal", s1.runeCount)
    else .ok (String.mk lit, s1)

/-- Embeds the closing-brace check at the end of `variable`. -/
def pCloseBrace (segs : List Segment) (s : PState) : Except PErr (List Segment × PState) :=
  match pConsume (Char.ofNat 125) s with
  | (true, s1) => .ok (segs, s1)
  | (false, s1) => .error ("expected \x7d", s1.runeCount)

mutual

/-- Embeds `pathTemplateParser.segments` (the `Segment { "/" Segment }`
loop), with a fuel argument for termination. -/
def pSegments : Nat → String → PState → Except PErr (List Segment × PState)
  | 0, _, s => .error ("template too long", s.runeCount)
  | fuel + 1, name, s =>
    match pSegment fuel name s with
    | .error e => .error e
    | .ok (segs1, s1) =>
      match pConsume '/' s1 with
      | (true, s2) =>
        match pSegments fuel name s2 with
        | .error e => .error e
        | .ok (segs2, s3) => .ok (segs1 ++ segs2, s3)
      | (false, s2) => .ok (segs1, s2)

/-- Embeds `pathTemplateParser.segment`
(`Segment = "*" | "**" | LITERAL | Variable`). -/
def pSegment : Nat → String → PState → Except PErr (List Segment × PState)
  | 0, _, s => .error ("template too long", s.runeCount)
  | fuel + 1, name, s =>
    match pConsume '*' s with
    | (true, s1) =>
      let nm : String := if name = "" then "$" ++ toString s1.nextVar else name
      let s2 : PState := if name = "" then { s1 with nextVar := s1.nextVar + 1 } else s1
      match pConsume '*' s2 with
      | (true, s3) =>
        if s3.seenPW then .error ("multiple ** disallowed", s3.runeCount)
        else .ok ([{ matcher := .pathWildcard 0, name := nm }], { s3 with seenPW := true })
      | (false, s3) => .ok ([{ matcher := .wildcard, name := nm }], s3)
    | (false, _) =>
      match pConsume (Char.ofNat 123) s with
      | (true, s1) =>
        if name ≠ "" then .error ("recursive named bindings are not allowed", s1.runeCount)
        else pVariable fuel s1
      | (false, _) =>
        match pLiteral s with
        | .error e => .error e
        | .ok (lit, s1) => .ok ([{ matcher := .label lit, name := name }], s1)

/-- Embeds `pathTemplateParser.variable`
(`Variable = "{" FieldPath [ "=" Segments ] "}"`, `{` consumed). -/
def pVariable : Nat → PState → Except PErr (List Segment × PState)
  | 0, s => .error ("template too long", s.runeCount)
  | fuel + 1, s =>
    match pLiteral s with
    | .error e => .error e
    | .ok (name, s1) =>
      if s1.seenName.contains name then .error (name ++ " appears multiple times", s1.runeCount)
      else
        let s2 : PState := { s1 with seenName := name :: s1.seenName }
        match pConsume '=' s2 with
        | (true, s3) =>
          match pSegments fuel name s3 with
          | .error e => .error e
          | .ok (segs, s4) => pCloseBrace segs s4
        | (false, s3) => pCloseBrace [{ matcher := .wildcard, name := name }] s3

end

/-- Embeds `pathTemplateParser.template`
(`Template = [ "/" ] Segments`; an initial `/` produces an empty
label anchor segment). -/
def pTemplate (fuel : Nat) (s : PState) : Except PErr (List Segment × PState) :=
  match pConsume '/' s with
  | (true, s1) =>
    match pSegments fuel "" s1 with
    | .error e => .error e
    | .ok (segs, s2) => .ok ({ matcher := .label "", name := "" } :: segs, s2)
  | (false, s1) => pSegments fuel "" s1

/-- Embeds the back-patch loop in `parsePathTemplate`: the first path
wildcard's length becomes `len(segs) - i - 1`, i.e. the number of
segments after it. -/
def backpatch : List Segment → List Segment
  | [] => []
  | seg :: rest =>
    match seg.matcher with
    | .pathWildcard _ => { matcher := .pathWildcard rest.length, name := seg.name } :: rest
    | _ => seg :: backpatch rest

/-- Embeds `parsePathTemplate` (and hence `NewPathTemplate`): run the
parser (with ample fuel: the recursion depth is bounded by the input
length) and back-patch the path wildcard. A thrown `errString` becomes
a `ParseError` carrying the rune count at the throw site. -/
def parsePathTemplate (template : String) : Except ParseError PathTemplate :=
  match pTemplate (3 * template.length + 3) ⟨template.data, 0, 0, [], false⟩ with
  | .error (msg, pos) => .error ⟨pos, template, msg⟩
  | .ok (segs, _) => .ok ⟨backpatch segs⟩

/-! ## Parser invariants -/

/-- Number of path-wildcard (`**`) segments. -/
def countPW : List Segment → Nat
  | [] => 0
  | seg :: rest =>
    (match seg.matcher with | .pathWildcard _ => 1 | _ => 0) + countPW rest

theorem countPW_append (a b : List Segment) :
    countPW (a ++ b) = countPW a + countPW b := by
  induction a with
  | nil => simp [countPW]
  | cons seg rest ih => simp [countPW, ih]; omega

/-- Invariant of a parser step that returned `segs` evolving state `s`
to `s'`: the seen-path-wildcard flag correctly tracks the produced
path wildcards, at most one is ever produced, and produced path
wildcards carry the placeholder length `0`. -/
abbrev PWInv (s : PState) (segs : List Segment) (s' : PState) : Prop :=
  (s.seenPW = true → countPW segs = 0) ∧
  countPW segs ≤ 1 ∧
  s'.seenPW = (s.seenPW || decide (0 < countPW segs)) ∧
  (∀ seg ∈ segs, ∀ k, seg.matcher = .pathWildcard k → k = 0)

/-- Name invariant of `segment`/`segments` parsing under binding name
`name`: under a nonempty name every produced segment carries that name,
and unnamed segments are always literal labels. -/
abbrev NameInv (name : String) (segs : List Segment) : Prop :=
  ∀ seg ∈ segs, (name ≠ "" → seg.name = name) ∧
    (seg.name = "" → ∃ l, seg.matcher = .label l)

theorem decide_pos_add (a b : Nat) :
    decide (0 < a + b) = (decide (0 < a) || decide (0 < b)) := by
  cases a <;> cases b <;> simp

theorem PWInv_congr {s t s' t' : PState} {segs : List Segment}
    (hs : s.seenPW = t.seenPW) (hs' : s'.seenPW = t'.seenPW)
    (h : PWInv t segs t') : PWInv s segs s' := by
  obtain ⟨h1, h2, h3, h4⟩ := h
  refine ⟨fun hp => h1 (by rw [← hs]; exact hp), h2, ?_, h4⟩
  rw [hs', hs]
  exact h3

theorem PWInv_seq {s s1 s2 s3 : PState} {segs1 segs2 : List Segment}
    (h1 : PWInv s segs1 s1) (hflag : s2.seenPW = s1.seenPW)
    (h2 : PWInv s2 segs2 s3) : PWInv s (segs1 ++ segs2) s3 := by
  obtain ⟨a1, b1, c1, d1⟩ := h1
  obtain ⟨a2, b2, c2, d2⟩ := h2
  refine ⟨?_, ?_, ?_, ?_⟩
  · intro hp
    have e1 := a1 hp
    have hs2 : s2.seenPW = true := by rw [hflag, c1, hp]; rfl
    have e2 := a2 hs2
    rw [countPW_append]
    omega
  · rw [countPW_append]
    by_cases hp : s.seenPW = true
    · have e1 := a1 hp
      have hs2 : s2.seenPW = true := by rw [hflag, c1, hp]; rfl
      have e2 := a2 hs2
      omega
    · have hs : s.seenPW = false := by revert hp; cases s.seenPW <;> simp
      by_cases hc : 0 < countPW segs1
      · have hs2 : s2.seenPW = true := by rw [hflag, c1, hs]; simp [hc]
        have e2 := a2 hs2
        omega
      · omega
  · rw [countPW_append, c2, hflag, c1, decide_pos_add]
    cases s.seenPW <;> simp [Bool.or_assoc]
  · intro seg hseg k hk
    rcases List.mem_append.mp hseg with h | h
    exacts [d1 seg h k hk, d2 seg h k hk]

theorem NameInv_append {name : String} {segs1 segs2 : List Segment}
    (h1 : NameInv name segs1) (h2 : NameInv name segs2) :
    NameInv name (segs1 ++ segs2) := by
  intro seg hseg
  rcases List.mem_append.mp hseg with h | h
  exacts [h1 seg h, h2 seg h]

theorem dollar_name_ne (n : Nat) : ("$" ++ toString n) ≠ "" := by
  intro h
  have := congrArg String.length h
  simp [String.length_append] at this
  exact absurd this.1 (by decide)

theorem pConsume_snd_seenPW (c : Char) (s : PState) :
    (pConsume c s).2.seenPW = s.seenPW := by
  rcases s with ⟨inp, rc, nv, sn, pw⟩
  cases inp with
  | nil => rfl
  | cons c' rest =>
    simp only [pConsume]
    split <;> rfl

theorem pConsume_false_eq {c : Char} {s s' : PState} (h : pConsume c s = (false, s')) :
    s' = s := by
  rcases s with ⟨inp, rc, nv, sn, pw⟩
  cases inp with
  | nil => cases h; rfl
  | cons c' rest =>
    simp only [pConsume] at h
    split at h
    · cases h
    · cases h; rfl

theorem pLiteral_ok {s : PState} {lit : String} {s1 : PState}
    (h : pLiteral s = .ok (lit, s1)) : s1.seenPW = s.seenPW := by
  simp only [pLiteral] at h
  split at h
  · simp at h
  · cases h; rfl

theorem pCloseBrace_ok {segs segs' : List Segment} {s s1 : PState}
    (h : pCloseBrace segs s = .ok (segs', s1)) :
    segs' = segs ∧ s1.seenPW = s.seenPW := by
  simp only [pCloseBrace] at h
  rcases hc : pConsume (Char.ofNat 125) s with ⟨b, s2⟩
  rw [hc] at h
  cases b with
  | true =>
    cases h
    have := pConsume_snd_seenPW (Char.ofNat 125) s
    rw [hc] at this
    exact ⟨rfl, this⟩
  | false => cases h

theorem pLiteral_ok_ne {s : PState} {lit : String} {s1 : PState}
    (h : pLiteral s = .ok (lit, s1)) : lit ≠ "" := by
  simp only [pLiteral] at h
  split at h
  · simp at h
  · cases h
    rename_i hne
    intro hlit
    have hdata : (takeUntilStop s.input).1 = [] := by
      simpa using congrArg String.data hlit
    rw [hdata] at hne
    simp at hne

/-- The combined invariant of the three mutually recursive parser
functions, proved by induction on the fuel. -/
theorem parserInv : ∀ fuel : Nat,
    (∀ name s segs s', pSegments fuel name s = .ok (segs, s') →
      PWInv s segs s' ∧ NameInv name segs) ∧
    (∀ name s segs s', pSegment fuel name s = .ok (segs, s') →
      PWInv s segs s' ∧ NameInv name segs) ∧
    (∀ s segs s', pVariable fuel s = .ok (segs, s') →
      PWInv s segs s' ∧ ∀ seg ∈ segs, seg.name ≠ "") := by
  intro fuel
  induction fuel with
  | zero =>
    refine ⟨?_, ?_, ?_⟩ <;> intros _ _ _ <;> intros <;>
      simp [pSegments, pSegment, pVariable] at *
  | succ fuel ih =>
    obtain ⟨ihSegs, ihSeg, ihVar⟩ := ih
    have hSeg : ∀ name s segs s', pSegment (fuel + 1) name s = .ok (segs, s') →
        PWInv s segs s' ∧ NameInv name segs := by
      intro name s segs s' h
      simp only [pSegment] at h
      split at h
      · -- pConsume '*' s = (true, s1)
        rename_i s1 heq1
        have h1pw : s1.seenPW = s.seenPW := by
          have := pConsume_snd_seenPW '*' s
          rw [heq1] at this
          exact this
        have hnm : (if name = "" then "$" ++ toString s1.nextVar else name) ≠ "" := by
          split
          · exact dollar_name_ne s1.nextVar
          · assumption
        have h2pw : (if name = "" then ({ s1 with nextVar := s1.nextVar + 1 } : PState)
            else s1).seenPW = s.seenPW := by
          split <;> exact h1pw
        split at h
        · -- pConsume '*' _ = (true, s3): path wildcard
          rename_i s3 heq2
          have h3pw : s3.seenPW = s.seenPW := by
            have := pConsume_snd_seenPW '*'
              (if name = "" then ({ s1 with nextVar := s1.nextVar + 1 } : PState) else s1)
            rw [heq2] at this
            rw [this, h2pw]
          split at h
          · simp at h
          · rename_i hseen
            cases h
            constructor
            · refine ⟨?_, by simp [countPW], by simp [countPW], ?_⟩
              · intro hp
                exact absurd (h3pw.trans hp) hseen
              · intro seg hseg k hk
                simp at hseg
                rw [hseg] at hk
                simp at hk
                omega
            · intro seg hseg
              simp at hseg
              rw [hseg]
              refine ⟨fun hn => by simp [hn], fun hz => absurd hz hnm⟩
        · -- pConsume '*' _ = (false, s3): single wildcard
          rename_i s3 heq2
          cases h
          constructor
          · refine ⟨fun _ => by simp [countPW], by simp [countPW], ?_, ?_⟩
            · rw [pConsume_false_eq heq2]
              simp [countPW, h2pw]
            · intro seg hseg k hk
              simp at hseg
              rw [hseg] at hk
              simp at hk
          · intro seg hseg
            simp at hseg
            rw [hseg]
            refine ⟨fun hn => by simp [hn], fun hz => absurd hz hnm⟩
      · -- pConsume '*' s = (false, _)
        split at h
        · -- pConsume '{' s = (true, s1): variable
          rename_i s1 heq1
          have h1pw : s1.seenPW = s.seenPW := by
            have := pConsume_snd_seenPW (Char.ofNat 123) s
            rw [heq1] at this
            exact this
          split at h
          · simp at h
          · rename_i hn
            have hname : name = "" := not_not.mp hn
            obtain ⟨hpw, hnames⟩ := ihVar s1 segs s' h
            refine ⟨PWInv_congr h1pw.symm rfl hpw, ?_⟩
            intro seg hseg
            exact ⟨fun hne => absurd hname hne, fun hz => absurd hz (hnames seg hseg)⟩
        · -- literal segment
          split at h
          · simp at h
          · rename_i lit s1 heqlit
            cases h
            have hlpw := pLiteral_ok heqlit
            constructor
            · refine ⟨fun _ => by simp [countPW], by simp [countPW], ?_, ?_⟩
              · rw [hlpw]
                simp [countPW]
              · intro seg hseg k hk
                simp at hseg
                rw [hseg] at hk
                simp at hk
            · intro seg hseg
              simp at hseg
              rw [hseg]
              exact ⟨fun _ => rfl, fun _ => ⟨lit, rfl⟩⟩
    refine ⟨?_, hSeg, ?_⟩
    · -- pSegments
      intro name s segs s' h
      simp only [pSegments] at h
      split at h
      · simp at h
      · rename_i segs1 s1 heq1
        obtain ⟨hpw1, hname1⟩ := ihSeg name s segs1 s1 heq1
        split at h
        · -- pConsume '/' s1 = (true, s2): loop continues
          rename_i s2 heq2
          have h2pw : s2.seenPW = s1.seenPW := by
            have := pConsume_snd_seenPW '/' s1
            rw [heq2] at this
            exact this
          split at h
          · simp at h
          · rename_i segs2 s3 heq3
            cases h
            obtain ⟨hpw2, hname2⟩ := ihSegs _ _ _ _ heq3
            exact ⟨PWInv_seq hpw1 h2pw hpw2, NameInv_append hname1 hname2⟩
        · -- loop ends
          rename_i s2 heq2
          cases h
          rw [pConsume_false_eq heq2]
          exact ⟨hpw1, hname1⟩
    · -- pVariable
      intro s segs s' h
      simp only [pVariable] at h
      split at h
      · simp at h
      · rename_i vname s1 heqlit
        have hlpw := pLiteral_ok heqlit
        have hlne := pLiteral_ok_ne heqlit
        split at h
        · simp at h
        · rename_i hnotseen
          split at h
          · -- pConsume '=' _ = (true, s3): sub-pattern segments
            rename_i s3 heqc
            have h3pw : s3.seenPW = s1.seenPW := by
              have := pConsume_snd_seenPW '=' { s1 with seenName := vname :: s1.seenName }
              rw [heqc] at this
              exact this
            split at h
            · simp at h
            · rename_i segs2 s4 heqss
              obtain ⟨hsegs', hbpw⟩ := pCloseBrace_ok h
              obtain ⟨hpw2, hname2⟩ := ihSegs vname s3 segs2 s4 heqss
              subst hsegs'
              refine ⟨PWInv_congr (by rw [h3pw, hlpw]) hbpw hpw2, ?_⟩
              intro seg hseg
              rw [(hname2 seg hseg).1 hlne]
              exact hlne
          · -- "{var}" is "{var=*}": single wildcard
            rename_i s3 heqc
            obtain ⟨hsegs', hbpw⟩ := pCloseBrace_ok h
            subst hsegs'
            refine ⟨?_, ?_⟩
            · refine ⟨fun _ => by simp [countPW], by simp [countPW], ?_, ?_⟩
              · rw [hbpw, pConsume_false_eq heqc]
                simp [countPW, hlpw]
              · intro seg hseg k hk
                simp at hseg
                rw [hseg] at hk
                simp at hk
            · intro seg hseg
              simp at hseg
              rw [hseg]
              exact hlne

theorem pTemplate_inv {fuel : Nat} {s : PState} {segs : List Segment} {s' : PState}
    (h : pTemplate fuel s = .ok (segs, s')) :
    countPW segs ≤ 1 ∧ (∀ seg ∈ segs, ∀ k, seg.matcher = .pathWildcard k → k = 0) ∧
      (∀ seg ∈ segs, seg.name = "" → ∃ x, seg.matcher = .label x) := by
  simp only [pTemplate] at h
  split at h
  · -- leading slash: anchor segment prepended
    rename_i s1 heq1
    have h1pw : s1.seenPW = s.seenPW := by
      have := pConsume_snd_seenPW '/' s
      rw [heq1] at this
      exact this
    split at h
    · simp at h
    · rename_i segs1 s2 heq2
      cases h
      obtain ⟨⟨hp1, hp2, hp3, hp4⟩, hnm⟩ := (parserInv fuel).1 _ _ _ _ heq2
      refine ⟨by simpa [countPW] using hp2, ?_, ?_⟩
      · intro seg hseg k hk
        rcases List.mem_cons.mp hseg with hh | hh
        · rw [hh] at hk
          simp at hk
        · exact hp4 seg hh k hk
      · intro seg hseg hz
        rcases List.mem_cons.mp hseg with hh | hh
        · exact ⟨"", by rw [hh]⟩
        · exact (hnm seg hh).2 hz
  · rename_i s1 heq1
    obtain ⟨⟨hp1, hp2, hp3, hp4⟩, hnm⟩ := (parserInv fuel).1 _ _ _ _ h
    exact ⟨hp2, hp4, fun seg hseg hz => (hnm seg hseg).2 hz⟩

theorem countPW_backpatch (l : List Segment) : countPW (backpatch l) = countPW l := by
  induction l with
  | nil => rfl
  | cons seg rest ih =>
    simp only [backpatch]
    split
    · rename_i k hk
      simp [countPW, hk]
    · rename_i hk
      simp only [countPW, ih]

theorem length_backpatch (l : List Segment) : (backpatch l).length = l.length := by
  induction l with
  | nil => rfl
  | cons seg rest ih =>
    simp only [backpatch]
    split
    · simp
    · simp [ih]

theorem countPW_zero_no_PW {l : List Segment} (h : countPW l = 0) :
    ∀ seg ∈ l, ∀ k, seg.matcher ≠ .pathWildcard k := by
  induction l with
  | nil => intro seg hseg; simp at hseg
  | cons s0 rest ih =>
    intro seg hseg k hk
    simp only [countPW] at h
    rcases List.mem_cons.mp hseg with hh | hh
    · rw [← hh, hk] at h
      simp at h
    · exact ih (by omega) seg hh k hk

theorem backpatch_unnamed_label {l : List Segment}
    (h : ∀ seg ∈ l, seg.name = "" → ∃ x, seg.matcher = .label x) :
    ∀ seg ∈ backpatch l, seg.name = "" → ∃ x, seg.matcher = .label x := by
  induction l with
  | nil => intro seg hseg; simp [backpatch] at hseg
  | cons s0 rest ih =>
    intro seg hseg hz
    simp only [backpatch] at hseg
    revert hseg
    split
    · rename_i k hk
      intro hseg
      rcases List.mem_cons.mp hseg with hh | hh
      · -- the patched segment keeps the old name; the old segment was a
        -- path wildcard, so an empty name contradicts the hypothesis
        rw [hh] at hz
        simp at hz
        obtain ⟨x, hx⟩ := h s0 (List.mem_cons_self s0 rest) hz
        rw [hk] at hx
        simp at hx
      · exact h seg (List.mem_cons_of_mem _ hh) hz
    · intro hseg
      rcases List.mem_cons.mp hseg with hh | hh
      · exact h seg (by rw [hh]; exact List.mem_cons_self s0 rest) hz
      · exact ih (fun sg hsg => h sg (List.mem_cons_of_mem _ hsg)) seg hh hz

theorem backpatch_PW_len {l : List Segment} (h : countPW l ≤ 1) :
    ∀ i seg, (backpatch l)[i]? = some seg → ∀ k, seg.matcher = .pathWildcard k →
      k = l.length - i - 1 := by
  induction l with
  | nil => intro i seg hseg; simp [backpatch] at hseg
  | cons s0 rest ih =>
    intro i seg hseg k hk
    simp only [backpatch] at hseg
    revert hseg
    split
    · rename_i k0 hk0
      intro hseg
      cases i with
      | zero =>
        simp at hseg
        rw [← hseg] at hk
        simp at hk
        simp [← hk]
      | succ j =>
        simp at hseg
        -- the remaining segments contain no path wildcard
        have hcz : countPW rest = 0 := by
          simp only [countPW, hk0] at h
          omega
        have hmem : seg ∈ rest := List.getElem?_mem hseg
        exact absurd hk (countPW_zero_no_PW hcz seg hmem k)
    · rename_i hk0
      intro hseg
      cases i with
      | zero =>
        simp at hseg
        rw [← hseg] at hk
        exact absurd hk (hk0 k)
      | succ j =>
        simp at hseg
        have hcr : countPW rest ≤ 1 := by
          simp only [countPW] at h
          omega
        have := ih hcr j seg hseg k hk
        simp only [List.length_cons]
        omega

theorem parse_inv {t : String} {pt : PathTemplate} (h : parsePathTemplate t = .ok pt) :
    countPW pt.segments ≤ 1 ∧
      (∀ seg ∈ pt.segments, seg.name = "" → ∃ x, seg.matcher = .label x) ∧
      (∀ i seg, pt.segments[i]? = some seg → ∀ k, seg.matcher = .pathWildcard k →
        k = pt.segments.length - i - 1) := by
  simp only [parsePathTemplate] at h
  split at h
  · simp at h
  · rename_i segs s' heq
    cases h
    obtain ⟨hc, hk0, hnm⟩ := pTemplate_inv heq
    refine ⟨?_, backpatch_unnamed_label hnm, ?_⟩
    · rw [countPW_backpatch]
      exact hc
    · intro i seg hseg k hk
      have := backpatch_PW_len hc i seg hseg k hk
      rw [length_backpatch]
      exact this

/-! ## Match/Render round trip -/

/-- The one-sided `/`-concatenation performed by `Match` when a variable
name receives a further value. -/
def appendVal : Option String → String → String
  | none, v => v
  | some w, v => w ++ "/" ++ v

/-- Folding `appendVal` over successively recorded values. -/
def appendValFold (acc : Option String) (ps : List String) : Option String :=
  ps.foldl (fun a p => some (appendVal a p)) acc

theorem appendValFold_some (w : String) (ps : List String) (hps : ps ≠ []) :
    appendValFold (some w) ps = some (w ++ "/" ++ joinSlash ps) := by
  induction ps generalizing w with
  | nil => exact absurd rfl hps
  | cons p ps' ih =>
    cases ps' with
    | nil => rfl
    | cons q qs =>
      show appendValFold (some (w ++ "/" ++ p)) (q :: qs) = _
      rw [ih (w ++ "/" ++ p) (by simp), joinSlash_cons_cons]
      simp [String.append_assoc]

theorem appendValFold_none (ps : List String) (hps : ps ≠ []) :
    appendValFold none ps = some (joinSlash ps) := by
  cases ps with
  | nil => exact absurd rfl hps
  | cons p ps' =>
    cases ps' with
    | nil => rfl
    | cons q qs =>
      show appendValFold (some p) (q :: qs) = _
      rw [appendValFold_some p (q :: qs) (by simp), joinSlash_cons_cons]

theorem listGet_updateVal_self (vs : Values) (k v : String) :
    listGet (updateVal vs k v) k = some (appendVal (listGet vs k) v) := by
  simp only [updateVal]
  match h : listGet vs k with
  | some old => simp [listGet_listSet_self, appendVal]
  | none => simp [listGet_listSet_self, appendVal]

theorem listGet_updateVal_ne (vs : Values) (k v m : String) (h : m ≠ k) :
    listGet (updateVal vs k v) m = listGet vs m := by
  simp only [updateVal]
  match h2 : listGet vs k with
  | some old => exact listGet_listSet_ne vs k m _ h
  | none => exact listGet_listSet_ne vs k m _ h

theorem matchSegs_simple {m : Matcher} (hm : ∀ k, m ≠ .pathWildcard k)
    {paths : List String} {len : Nat} (h : m.matchSegs paths = .ok len) :
    len = 1 ∧ paths ≠ [] := by
  cases m with
  | label s =>
    cases paths with
    | nil => simp [Matcher.matchSegs] at h
    | cons p rest =>
      simp only [Matcher.matchSegs] at h
      split at h
      · cases h; exact ⟨rfl, by simp⟩
      · simp at h
  | wildcard =>
    cases paths with
    | nil => simp [Matcher.matchSegs] at h
    | cons p rest => cases h; exact ⟨rfl, by simp⟩
  | pathWildcard k => exact absurd rfl (hm k)

theorem matchSegs_label {s : String} {paths : List String} {len : Nat}
    (h : (Matcher.label s).matchSegs paths = .ok len) :
    len = 1 ∧ ∃ rest, paths = s :: rest := by
  cases paths with
  | nil => simp [Matcher.matchSegs] at h
  | cons p rest =>
    simp only [Matcher.matchSegs] at h
    split at h
    · rename_i hp
      cases h
      exact ⟨rfl, rest, by rw [hp]⟩
    · simp at h

theorem consumeLoop_append (a b : List Segment) (paths : List String) (vs : Values) :
    consumeLoop (a ++ b) paths vs =
      match consumeLoop a paths vs with
      | .error e => .error e
      | .ok (p', v') => consumeLoop b p' v' := by
  induction a generalizing paths vs with
  | nil => rfl
  | cons seg rest ih =>
    simp only [List.cons_append, consumeLoop]
    match h : seg.matcher.matchSegs paths with
    | .error e => rfl
    | .ok len => exact ih _ _

theorem consumeLoop_listGet {segs : List Segment} {paths p' : List String}
    {vs v' : Values} (h : consumeLoop segs paths vs = .ok (p', v')) (m : String)
    (hmm2 : ∀ seg ∈ segs, seg.name ≠ m) : listGet v' m = listGet vs m := by
  induction segs generalizing paths vs with
  | nil => cases h; rfl
  | cons seg rest ih =>
    simp only [consumeLoop] at h
    match h2 : seg.matcher.matchSegs paths with
    | .error e => rw [h2] at h; simp at h
    | .ok len =>
      rw [h2] at h
      have hrest : ∀ sg ∈ rest, sg.name ≠ m := fun sg hsg => hmm2 sg (List.mem_cons_of_mem _ hsg)
      have step := ih h hrest
      rw [step]
      split
      · rfl
      · exact listGet_updateVal_ne _ _ _ _ (Ne.symm (hmm2 seg (List.mem_cons_self seg rest)))

/-- Consuming a run of simple segments that all carry the same nonempty
name `n`: exactly one candidate segment per template segment is
consumed, `n`'s value accumulates all of them, and no other name
changes. -/
theorem consumeRun {n : String} : ∀ (run : List Segment) (paths p' : List String)
    (vs v' : Values), (∀ seg ∈ run, seg.name = n) → n ≠ "" →
    (∀ seg ∈ run, ∀ k, seg.matcher ≠ .pathWildcard k) →
    consumeLoop run paths vs = .ok (p', v') →
    ∃ consumed, consumed.length = run.length ∧ paths = consumed ++ p' ∧
      listGet v' n = appendValFold (listGet vs n) consumed ∧
      (∀ m, m ≠ n → listGet v' m = listGet vs m) := by
  intro run
  induction run with
  | nil =>
    intro paths p' vs v' _ _ _ h
    cases h
    exact ⟨[], rfl, rfl, rfl, fun _ _ => rfl⟩
  | cons seg rest ih =>
    intro paths p' vs v' hn hne hpw h
    simp only [consumeLoop] at h
    match h2 : seg.matcher.matchSegs paths with
    | .error e => rw [h2] at h; simp at h
    | .ok len =>
      rw [h2] at h
      obtain ⟨hlen, hpne⟩ :=
        matchSegs_simple (hpw seg (List.mem_cons_self seg rest)) h2
      subst hlen
      obtain ⟨p, paths', rfl⟩ : ∃ p paths', paths = p :: paths' := by
        cases paths with
        | nil => exact absurd rfl hpne
        | cons p paths' => exact ⟨p, paths', rfl⟩
      have hsn : seg.name = n := hn seg (List.mem_cons_self seg rest)
      replace h : consumeLoop rest paths'
          (if seg.name = "" then vs
           else updateVal vs seg.name (joinSlash ((p :: paths').take 1))) = .ok (p', v') := h
      rw [hsn, if_neg hne] at h
      replace h : consumeLoop rest paths' (updateVal vs n p) = .ok (p', v') := h
      obtain ⟨consumed', hlen', hsplit, hacc, hpres⟩ := ih paths' p' (updateVal vs n p) v'
        (fun sg hsg => hn sg (List.mem_cons_of_mem _ hsg)) hne
        (fun sg hsg => hpw sg (List.mem_cons_of_mem _ hsg)) h
      refine ⟨p :: consumed', by simp [hlen'], by simp [hsplit], ?_, ?_⟩
      · rw [hacc, listGet_updateVal_self]
        rfl
      · intro m hm
        rw [hpres m hm, listGet_updateVal_ne _ _ _ _ hm]

theorem renderSkip (run rest : List Segment) (b : Values) (n : String)
    (hne : n ≠ "") (hn : ∀ seg ∈ run, seg.name = n) :
    renderLoop (run ++ rest) b n = renderLoop rest b n := by
  induction run with
  | nil => rfl
  | cons seg run' ih =>
    simp only [List.cons_append, renderLoop]
    rw [if_pos ⟨hne, hn seg (List.mem_cons_self seg run')⟩]
    exact ih (fun sg hsg => hn sg (List.mem_cons_of_mem _ hsg))

/-- Rendering a run of same-named segments emits the binding exactly
once (the later segments of the run are skipped). -/
theorem renderRun (seg : Segment) (run' rest : List Segment) (b : Values)
    (n lastVar w : String) (pieces : List String) (hne : n ≠ "") (hlv : lastVar ≠ n)
    (hn : ∀ sg ∈ seg :: run', sg.name = n) (hw : listGet b n = some w)
    (hpieces : renderLoop rest b n = .ok pieces) :
    renderLoop ((seg :: run') ++ rest) b lastVar = .ok (w :: pieces) := by
  simp only [List.cons_append, renderLoop]
  have hsn : seg.name = n := hn seg (List.mem_cons_self seg run')
  rw [if_neg (by rw [hsn]; exact fun hc => hlv hc.2.symm)]
  rw [hsn, if_neg hne, hw]
  rw [show run'.append rest = run' ++ rest from rfl,
    renderSkip run' rest b n hne (fun sg hsg => hn sg (List.mem_cons_of_mem _ hsg)),
    hpieces]

/-- Each nonempty variable name occupies a single consecutive run of
segments: after a name's run ends, the name never recurs. The parser
guarantees this except when a handwritten variable name collides with
an auto-generated wildcard name of the form `$n`. -/
def runUniqueB : List Segment → Bool
  | [] => true
  | seg :: rest =>
    if seg.name = "" then runUniqueB rest
    else
      ((rest.dropWhile (fun s => decide (s.name = seg.name))).all
          (fun s => !decide (s.name = seg.name))) &&
        runUniqueB (rest.dropWhile (fun s => decide (s.name = seg.name)))
termination_by l => l.length
decreasing_by
  · simp
  · have := (List.dropWhile_sublist (l := rest) (fun s => decide (s.name = seg.name))).length_le
    simp only [List.length_cons]
    omega

theorem matchLoop_cons (seg : Segment) (rest : List Segment) (paths : List String)
    (vs : Values) :
    matchLoop (seg :: rest) paths vs =
      match seg.matcher.matchSegs paths with
      | .error e => .error e
      | .ok len => matchLoop rest (paths.drop len)
          (if seg.name = "" then vs else updateVal vs seg.name (joinSlash (paths.take len))) := by
  simp only [matchLoop, consumeLoop]
  rcases h : seg.matcher.matchSegs paths with e | len <;> rfl

theorem matchLoop_append (a c : List Segment) (paths : List String) (vs : Values) :
    matchLoop (a ++ c) paths vs =
      match consumeLoop a paths vs with
      | .error e => .error e
      | .ok (p1, v1) => matchLoop c p1 v1 := by
  simp only [matchLoop, consumeLoop_append]
  rcases h : consumeLoop a paths vs with e | pv
  · rfl
  · obtain ⟨p1, v1⟩ := pv
    rfl

theorem matchLoop_ok {segs : List Segment} {paths : List String} {vs b : Values}
    (h : matchLoop segs paths vs = .ok b) :
    consumeLoop segs paths vs = .ok ([], b) := by
  simp only [matchLoop] at h
  rcases h2 : consumeLoop segs paths vs with e | pv
  · rw [h2] at h
    simp at h
  · obtain ⟨p1, v1⟩ := pv
    rw [h2] at h
    replace h : (if p1.isEmpty then (Except.ok v1 : Except String Values)
        else .error ("Trailing path " ++ joinSlash p1 ++ " remains after the matching")) = .ok b := h
    split at h
    · cases h
      rename_i hemp
      rw [List.isEmpty_iff.mp hemp]
    · simp at h

theorem matchLoop_nil {paths : List String} {vs b : Values}
    (h : matchLoop [] paths vs = .ok b) : paths = [] ∧ b = vs := by
  replace h : (if paths.isEmpty then (Except.ok vs : Except String Values)
      else .error ("Trailing path " ++ joinSlash paths ++ " remains after the matching")) = .ok b := h
  split at h
  · cases h
    rename_i hemp
    exact ⟨List.isEmpty_iff.mp hemp, rfl⟩
  · simp at h

/-- Core of the round-trip property: on a template without path
wildcards, whose unnamed segments are labels and whose nonempty names
each occupy one consecutive run, `Render` applied to the bindings of a
successful `Match` reproduces the consumed path segments. -/
theorem roundTripAux : ∀ (N : Nat) (segs : List Segment), segs.length ≤ N →
    (∀ seg ∈ segs, ∀ k, seg.matcher ≠ Matcher.pathWildcard k) →
    (∀ seg ∈ segs, seg.name = "" → ∃ x, seg.matcher = .label x) →
    runUniqueB segs = true →
    ∀ (paths : List String) (vs b : Values) (lastVar : String),
    (∀ seg ∈ segs, seg.name ≠ "" → listGet vs seg.name = none) →
    (lastVar = "" ∨ ∀ seg0, segs.head? = some seg0 → seg0.name ≠ lastVar) →
    matchLoop segs paths vs = .ok b →
    ∃ pieces, renderLoop segs b lastVar = .ok pieces ∧
      joinSlash pieces = joinSlash paths ∧ (pieces = [] ↔ paths = []) := by
  intro N
  induction N with
  | zero =>
    intro segs hlen _ _ _ paths vs b lastVar _ _ hm
    have hnil : segs = [] := List.length_eq_zero.mp (Nat.le_zero.mp hlen)
    subst hnil
    obtain ⟨rfl, rfl⟩ := matchLoop_nil hm
    exact ⟨[], rfl, rfl, by simp⟩
  | succ N ihN =>
    intro segs hlen h1 h2 h3 paths vs b lastVar h4 h5 hm
    cases segs with
    | nil =>
      obtain ⟨rfl, rfl⟩ := matchLoop_nil hm
      exact ⟨[], rfl, rfl, by simp⟩
    | cons seg rest =>
      by_cases hz : seg.name = ""
      · -- unnamed head segment: a literal label
        obtain ⟨x, hx⟩ := h2 seg (List.mem_cons_self seg rest) hz
        rw [matchLoop_cons] at hm
        rcases hms : seg.matcher.matchSegs paths with e | len
        · rw [hms] at hm
          simp at hm
        · rw [hms] at hm
          rw [hx] at hms
          obtain ⟨hlen1, paths', rfl⟩ := matchSegs_label hms
          subst hlen1
          rw [hz] at hm
          replace hm : matchLoop rest paths' vs = .ok b := by
            simpa using hm
          have hrest3 : runUniqueB rest = true := by
            have := h3
            simp only [runUniqueB] at this
            rw [if_pos hz] at this
            exact this
          obtain ⟨pieces', hr', hj', hiff'⟩ := ihN rest (by simpa using hlen)
            (fun sg hsg => h1 sg (List.mem_cons_of_mem _ hsg))
            (fun sg hsg => h2 sg (List.mem_cons_of_mem _ hsg))
            hrest3 paths' vs b ""
            (fun sg hsg => h4 sg (List.mem_cons_of_mem _ hsg))
            (Or.inl rfl) hm
          refine ⟨x :: pieces', ?_, ?_, by simp⟩
          · simp only [renderLoop]
            rw [if_neg (fun hc => hc.1 (by rw [← hc.2, hz])), if_pos hz, hx, hz, hr']
            rfl
          · by_cases hp : paths' = []
            · subst hp
              rw [hiff'.mpr rfl]
            · have hpc : pieces' ≠ [] := fun hc => hp (hiff'.mp hc)
              obtain ⟨q, qs, rfl⟩ : ∃ q qs, paths' = q :: qs := by
                cases paths' with
                | nil => exact absurd rfl hp
                | cons q qs => exact ⟨q, qs, rfl⟩
              obtain ⟨w, ws, rfl⟩ : ∃ w ws, pieces' = w :: ws := by
                cases pieces' with
                | nil => exact absurd rfl hpc
                | cons w ws => exact ⟨w, ws, rfl⟩
              rw [joinSlash_cons_cons, joinSlash_cons_cons, hj']
      · -- named head segment: process its whole run at once
        have hsplit : seg :: rest =
            (seg :: rest.takeWhile (fun s => decide (s.name = seg.name))) ++
              rest.dropWhile (fun s => decide (s.name = seg.name)) := by
          rw [List.cons_append, List.takeWhile_append_dropWhile]
        have h3' := h3
        simp only [runUniqueB] at h3'
        rw [if_neg hz, Bool.and_eq_true] at h3'
        obtain ⟨hall, hru⟩ := h3'
        have hafter_ne : ∀ sg ∈ rest.dropWhile (fun s => decide (s.name = seg.name)),
            sg.name ≠ seg.name := by
          intro sg hsg
          have := List.all_eq_true.mp hall sg hsg
          simpa using this
        have hrun_name : ∀ sg ∈ seg :: rest.takeWhile (fun s => decide (s.name = seg.name)),
            sg.name = seg.name := by
          intro sg hsg
          rcases List.mem_cons.mp hsg with hh | hh
          · rw [hh]
          · have := List.mem_takeWhile_imp hh
            simpa using this
        have hrun_mem : ∀ sg ∈ seg :: rest.takeWhile (fun s => decide (s.name = seg.name)),
            sg ∈ seg :: rest := by
          intro sg hsg
          rcases List.mem_cons.mp hsg with hh | hh
          · rw [hh]
            exact List.mem_cons_self seg rest
          · exact List.mem_cons_of_mem _
              ((List.takeWhile_sublist (fun s => decide (s.name = seg.name))).subset hh)
        have hafter_mem : ∀ sg ∈ rest.dropWhile (fun s => decide (s.name = seg.name)),
            sg ∈ seg :: rest := fun sg hsg => List.mem_cons_of_mem _
              ((List.dropWhile_sublist (fun s => decide (s.name = seg.name))).subset hsg)
        rw [hsplit, matchLoop_append] at hm
        rcases hcl : consumeLoop
            (seg :: rest.takeWhile (fun s => decide (s.name = seg.name))) paths vs
          with e | pv
        · rw [hcl] at hm
          simp at hm
        · obtain ⟨p1, v1⟩ := pv
          rw [hcl] at hm
          replace hm : matchLoop (rest.dropWhile (fun s => decide (s.name = seg.name))) p1 v1
              = .ok b := hm
          obtain ⟨consumed, hclen, hpaths, hacc, hpres⟩ := consumeRun
            (seg :: rest.takeWhile (fun s => decide (s.name = seg.name))) paths p1 vs v1
            hrun_name hz (fun sg hsg => h1 sg (hrun_mem sg hsg)) hcl
          have hvs_n : listGet vs seg.name = none :=
            h4 seg (List.mem_cons_self seg rest) hz
          have hconsumed_ne : consumed ≠ [] := by
            intro hc
            rw [hc] at hclen
            simp at hclen
          have hv1_n : listGet v1 seg.name = some (joinSlash consumed) := by
            rw [hacc, hvs_n, appendValFold_none consumed hconsumed_ne]
          have hb_n : listGet b seg.name = some (joinSlash consumed) := by
            rw [consumeLoop_listGet (matchLoop_ok hm) seg.name hafter_ne]
            exact hv1_n
          -- the remaining template after the run
          obtain ⟨pieces', hr', hj', hiff'⟩ := ihN
            (rest.dropWhile (fun s => decide (s.name = seg.name)))
            (by
              have := (List.dropWhile_sublist (l := rest)
                (fun s => decide (s.name = seg.name))).length_le
              simp at hlen
              omega)
            (fun sg hsg => h1 sg (hafter_mem sg hsg))
            (fun sg hsg => h2 sg (hafter_mem sg hsg))
            hru p1 v1 b seg.name
            (fun sg hsg hne => by
              rw [hpres sg.name (hafter_ne sg hsg)]
              exact h4 sg (hafter_mem sg hsg) hne)
            (Or.inr (fun seg0 hh => hafter_ne seg0 (List.mem_of_mem_head? hh)))
            hm
          have hlv : lastVar ≠ seg.name := by
            rcases h5 with hl | hr
            · rw [hl]
              exact fun hc => hz hc.symm
            · exact (hr seg rfl).symm
          have hrender := renderRun seg (rest.takeWhile (fun s => decide (s.name = seg.name)))
            (rest.dropWhile (fun s => decide (s.name = seg.name))) b seg.name lastVar
            (joinSlash consumed) pieces' hz hlv hrun_name hb_n hr'
          refine ⟨joinSlash consumed :: pieces', ?_, ?_, ?_⟩
          · rw [hsplit]
            exact hrender
          · rw [hpaths]
            by_cases hp : p1 = []
            · subst hp
              rw [hiff'.mpr rfl, List.append_nil]
              rfl
            · have hpc : pieces' ≠ [] := fun hc => hp (hiff'.mp hc)
              obtain ⟨w, ws, rfl⟩ : ∃ w ws, pieces' = w :: ws := by
                cases pieces' with
                | nil => exact absurd rfl hpc
                | cons w ws => exact ⟨w, ws, rfl⟩
              rw [joinSlash_cons_cons, hj', joinSlash_append consumed p1 hconsumed_ne hp]
          · constructor
            · intro hc
              simp at hc
            · intro hc
              rw [hpaths] at hc
              exact absurd (List.append_eq_nil.mp hc).1 hconsumed_ne

/-! ## Credential resolution (embedding `GetRegistryCredentials` in `iot.go`) -/

/-- Embeds `RegistryUserCredentials`. -/
structure RegistryUserCredentials where
  systemKey : String
  token : String
  url : String
deriving DecidableEq, Repr

/-- The service's per-registry credential cache
(`Service.RegistryUserCache : map[string]*RegistryUserCredentials`). -/
abbrev CredCache := List (String × RegistryUserCredentials)

/-- The possible outcomes of the remote credential lookup
(`s.client.Do(req)` followed by `io.ReadAll(resp.Body)`), abstracting
the HTTP transport. -/
inductive LookupOutcome where
  | transportErr (e : String)
  | readErr (e : String)
  | body (raw : String)
deriving DecidableEq, Repr

/-- What a call to `GetRegistryCredentials` does: either it returns a
credentials value (with the updated cache and whether the remote lookup
was performed), or it terminates the process via `log.Fatalln`. The Go
function's return type `*RegistryUserCredentials` has no error
component, so no error-returning outcome exists. -/
inductive CredResult where
  | ok (creds : RegistryUserCredentials) (cache : CredCache) (didLookup : Bool)
  | fatal (e : String)
deriving DecidableEq, Repr

/-- Embeds `GetRegistryCredentials(registry, region string, s *Service)`.
The HTTP POST and its response are abstracted by `lookup`; `parseCreds`
abstracts `json.Unmarshal` into `RegistryUserCredentials` (`none` =
unmarshal error, which the source discards with `_ =`, leaving the
zero-valued struct). The cache key is `fmt.Sprintf("%s-%s", region,
registry)`; on a hit the function returns without I/O, on a miss a
failed request or body read calls `log.Fatalln`. -/
def GetRegistryCredentials (registry region : String) (cache : CredCache)
    (lookup : LookupOutcome)
    (parseCreds : String → Option RegistryUserCredentials) : CredResult :=
  let cacheKey := region ++ "-" ++ registry
  match listGet cache cacheKey with
  | some c => .ok c cache false
  | none =>
    match lookup with
    | .transportErr e => .fatal e
    | .readErr e => .fatal e
    | .body raw =>
      let credentials := (parseCreds raw).getD ⟨"", "", ""⟩
      .ok credentials (listSet cache cacheKey credentials) true

/-! ## JSON values and response decoding -/

/-- A JSON value (numbers restricted to integers, which covers every
value these claims exercise). -/
inductive JsonVal where
  | str (s : String)
  | num (n : Int)
  | bool (b : Bool)
  | null
  | arr (elems : List JsonVal)
  | obj (fields : List (String × JsonVal))

/-- One entry of the error envelope, embedding the anonymous struct
`struct { Code int64; Message string; Status string }` in
`createHTTPError`. -/
structure ErrEnvelopeEntry where
  code : Int
  message : String
  status : String
deriving DecidableEq, Repr

/-- ASCII lower-casing of one character (the field names involved are
ASCII). -/
def charToLower (c : Char) : Char :=
  if c.isUpper then Char.ofNat (c.toNat + 32) else c

/-- Case-insensitive string comparison, as `encoding/json` matches JSON
keys to exported struct fields. -/
def eqIgnoreCase (a b : String) : Bool :=
  a.data.map charToLower == b.data.map charToLower

/-- Case-insensitive field lookup. -/
def findFieldCI (fields : List (String × JsonVal)) (key : String) : Option JsonVal :=
  (fields.find? (fun p => eqIgnoreCase p.1 key)).map (fun p => p.2)

/-- Decode an integer struct field per `encoding/json`: missing field
keeps the zero value, wrong type is an unmarshal error. -/
def getIntField (fields : List (String × JsonVal)) (key : String) : Except String Int :=
  match findFieldCI fields key with
  | none => .ok 0
  | some (.num n) => .ok n
  | some _ => .error ("json: cannot unmarshal value into Go struct field " ++ key)

/-- Decode a string struct field per `encoding/json`. -/
def getStrField (fields : List (String × JsonVal)) (key : String) : Except String String :=
  match findFieldCI fields key with
  | none => .ok ""
  | some (.str s) => .ok s
  | some _ => .error ("json: cannot unmarshal value into Go struct field " ++ key)

/-- Decode one envelope entry. -/
def decodeEnvelopeEntry : JsonVal → Except String ErrEnvelopeEntry
  | .obj fields =>
    match getIntField fields "code" with
    | .error e => .error e
    | .ok code =>
      match getStrField fields "message" with
      | .error e => .error e
      | .ok message =>
        match getStrField fields "status" with
        | .error e => .error e
        | .ok status => .ok ⟨code, message, status⟩
  | _ => .error "json: cannot unmarshal value into Go value of type struct"

/-- Embeds `json.Unmarshal` into
`map[string]struct { Code int64; Message string; Status string }`. -/
def decodeEnvelope : JsonVal → Except String (List (String × ErrEnvelopeEntry))
  | .obj fields =>
    let rec go : List (String × JsonVal) → Except String (List (String × ErrEnvelopeEntry))
      | [] => .ok []
      | (k, v) :: rest =>
        match decodeEnvelopeEntry v with
        | .error e => .error e
        | .ok entry =>
          match go rest with
          | .error e => .error e
          | .ok entries => .ok ((k, entry) :: entries)
    go fields
  | _ => .error "json: cannot unmarshal value into Go value of type map"

/-! ## HTTP response classification and the terminal `Do` operations -/

/-- A Go `error` value as produced by the call builders: an ordinary
error (`errors.New`, transport errors, decode errors) or the
`googleapi.Error` sentinel built for the not-modified case. -/
inductive GoError where
  | str (msg : String)
  | googleapiErr (code : Nat)
deriving DecidableEq, Repr

/-- An HTTP response: the status code plus the body. Reading the body
(`io.ReadAll`) can fail (outer `Except`); the bytes read either form
a JSON document or fail `json.Unmarshal` at the syntax level (inner
`Except`, carrying the unmarshal error message). -/
structure HttpResponse where
  statusCode : Nat
  body : Except String (Except String JsonVal)

/-- Embeds `createHTTPError(res *http.Response)`: read the body
(propagating a read error), unmarshal the error envelope (propagating
an unmarshal error), and otherwise build the formatted message from
`body["error"]` (zero-valued when the key is absent). -/
def createHTTPError (res : HttpResponse) : GoError :=
  match res.body with
  | .error e => .str e
  | .ok (.error je) => .str je
  | .ok (.ok j) =>
    match decodeEnvelope j with
    | .error e => .str e
    | .ok m =>
      let entry := (listGet m "error").getD ⟨0, "", ""⟩
      .str ("clearbladeiot: Error " ++ toString entry.code ++ ": " ++ entry.message ++ ", "
        ++ entry.status ++ "\n")

/-- The observable behavior of a terminal `Do` call: a decoded value,
a returned error, or a runtime panic. -/
inductive DoOutcome (α : Type) where
  | ok (a : α)
  | err (e : GoError)
  | panics (msg : String)
deriving DecidableEq, Repr

/-- Embeds `ProjectsLocationsRegistriesBindDeviceToGatewayCall.Do` (the
shape shared by every call builder except the List calls): `doRequest`
is abstracted by `reqResult`, `gensupport.DecodeResponse` of the 2xx
body by `decodeOk`. On a transport error `res` is nil, the not-modified
guard `res != nil && ...` is skipped, and the error is returned
verbatim. -/
def bindDo {α : Type} (reqResult : Except GoError HttpResponse)
    (decodeOk : HttpResponse → Except GoError α) : DoOutcome α :=
  match reqResult with
  | .error e => .err e
  | .ok res =>
    if res.statusCode = 304 then .err (.googleapiErr res.statusCode)
    else if 299 < res.statusCode ∨ res.statusCode < 200 then .err (createHTTPError res)
    else
      match decodeOk res with
      | .error e => .err e
      | .ok a => .ok a

/-- Embeds `ProjectsLocationsRegistriesListCall.Do`, which starts with
`bodybytes, err := io.ReadAll(res.Body)` before any nil or error check:
on a transport error `res` is nil and `res.Body` panics; otherwise the
read drains the body (later readers see zero bytes, an `unexpected end
of JSON input` unmarshal error) and overwrites `err`. -/
def listDo {α : Type} (reqResult : Except GoError HttpResponse)
    (decodeOk : HttpResponse → Except GoError α) : DoOutcome α :=
  match reqResult with
  | .error _ => .panics "runtime error: invalid memory address or nil pointer dereference"
  | .ok res =>
    match res.body with
    | .error e =>
      if res.statusCode = 304 then .err (.googleapiErr res.statusCode)
      else .err (.str e)
    | .ok _ =>
      let drained : HttpResponse :=
        { res with body := .ok (.error "unexpected end of JSON input") }
      if res.statusCode = 304 then .err (.googleapiErr res.statusCode)
      else if 299 < res.statusCode ∨ res.statusCode < 200 then .err (createHTTPError drained)
      else
        match decodeOk drained with
        | .error e => .err e
        | .ok a => .ok a

/-! ## List responses and pagination -/

/-- Embeds `ListDeviceRegistriesResponse` (the fields the claims
observe: the registries payload, kept as raw JSON values, and the
continuation token). -/
structure ListDeviceRegistriesResponse where
  deviceRegistries : List JsonVal
  nextPageToken : String

/-- Modelled from the spec: `gensupport.DecodeResponse` for
`ListDeviceRegistriesResponse` lives in `cblib/gensupport`, which is
part of this repository but not among the provided sources. Per the
spec, the decoder accepts `nextPageToken` as either a JSON string or a
JSON number and normalizes it to a string in both cases (an absent
token decodes to `""`; any other JSON type is an unmarshal error). -/
def decodeListDeviceRegistriesResponse (j : JsonVal) :
    Except String ListDeviceRegistriesResponse :=
  match j with
  | .obj fields =>
    match listGet fields "nextPageToken" with
    | none => .ok ⟨(match listGet fields "deviceRegistries" with
                    | some (.arr elems) => elems
                    | _ => []), ""⟩
    | some (.str s) => .ok ⟨(match listGet fields "deviceRegistries" with
                             | some (.arr elems) => elems
                             | _ => []), s⟩
    | some (.num n) => .ok ⟨(match listGet fields "deviceRegistries" with
                             | some (.arr elems) => elems
                             | _ => []), toString n⟩
    | some _ => .error "json: cannot unmarshal nextPageToken"
  | _ => .error "json: cannot unmarshal value into Go value of type ListDeviceRegistriesResponse"

/-- The call builder's query parameters (`gensupport.URLParams`);
`Get` of an absent key yields `""`. -/
abbrev UrlParams := List (String × String)

/-- Embeds `URLParams.Get`. -/
def UrlParams.get (ps : UrlParams) (k : String) : String := (listGet ps k).getD ""

/-- How a `Pages` run ends: normally (empty token), with a `Do` error,
with a callback error — or `needMore` when the delivered page sequence
is exhausted while the loop would issue another request (used to detect
that no further request happens). -/
inductive PagesOutcome where
  | done
  | errDo (e : GoError)
  | errCallback (e : String)
  | needMore
deriving DecidableEq, Repr

/-- The loop of `ProjectsLocationsRegistriesListCall.Pages` over a
delivered sequence of `Do` results: count the `Do` calls, stop on a
`Do` error, a callback error, or an empty `NextPageToken`, and
otherwise set the token as the next `pageToken` parameter. -/
def pagesLoop (f : ListDeviceRegistriesResponse → Except String Unit) :
    UrlParams → List (Except GoError ListDeviceRegistriesResponse) → Nat →
      PagesOutcome × UrlParams × Nat
  | params, [], n => (.needMore, params, n)
  | params, .error e :: _, n => (.errDo e, params, n + 1)
  | params, .ok x :: rest, n =>
    match f x with
    | .error fe => (.errCallback fe, params, n + 1)
    | .ok _ =>
      if x.nextPageToken = "" then (.done, params, n + 1)
      else pagesLoop f (listSet params "pageToken" x.nextPageToken) rest (n + 1)

/-- Embeds `ProjectsLocationsRegistriesListCall.Pages`: the deferred
`c.PageToken(c.urlParams_.Get("pageToken"))` captures the original
token at entry and restores it on every return path. -/
def Pages (f : ListDeviceRegistriesResponse → Except String Unit) (params0 : UrlParams)
    (pages : List (Except GoError ListDeviceRegistriesResponse)) :
    PagesOutcome × UrlParams × Nat :=
  let saved := UrlParams.get params0 "pageToken"
  match pagesLoop f params0 pages 0 with
  | (out, p, n) => (out, listSet p "pageToken" saved, n)

/-- A page result at which the `Pages` loop stops: a `Do` error, a
callback error, or an empty continuation token. -/
def stopsAt (f : ListDeviceRegistriesResponse → Except String Unit) :
    Except GoError ListDeviceRegistriesResponse → Bool
  | .error _ => true
  | .ok x =>
    match f x with
    | .error _ => true
    | .ok _ => x.nextPageToken = ""

/-! ## Claim theorems -/

/-- Claim C2: the spec requires every failure during per-registry
credential resolution (failed lookup request, unreadable response body,
unparsable response JSON) to be propagated as a typed error to the
caller. The source violates this: `GetRegistryCredentials` has no error
return at all; a transport or read failure calls `log.Fatalln`
(terminating the process), and an unmarshal failure is discarded with
`_ =`, silently returning and caching zero-valued credentials. This
theorem evaluates the embedded code at the three failing inputs. -/
theorem credResolutionFailureIsFatal :
    GetRegistryCredentials "r1" "us-central1" [] (.transportErr "connection refused")
        (fun _ => none) = .fatal "connection refused" ∧
      GetRegistryCredentials "r1" "us-central1" [] (.readErr "unexpected EOF")
        (fun _ => none) = .fatal "unexpected EOF" ∧
      GetRegistryCredentials "r1" "us-central1" [] (.body "not json") (fun _ => none) =
        .ok ⟨"", "", ""⟩ [("us-central1-r1", ⟨"", "", ""⟩)] true :=
  ⟨rfl, rfl, rfl⟩

/-- Claim C3: once a call to `GetRegistryCredentials` for a given
(region, registry) pair has completed (returned rather than exited),
every later call with the same pair on the resulting service state
returns the cached credentials and performs no remote lookup; starting
from an uncached pair, the first call performed the lookup, so two
resolutions issue it exactly once. -/
theorem GetRegistryCredentials_hit {registry region : String} {cache : CredCache}
    {c0 : RegistryUserCredentials} (lookup : LookupOutcome)
    (parse : String → Option RegistryUserCredentials)
    (h : listGet cache (region ++ "-" ++ registry) = some c0) :
    GetRegistryCredentials registry region cache lookup parse = .ok c0 cache false := by
  unfold GetRegistryCredentials
  dsimp only
  rw [h]

theorem GetRegistryCredentials_miss {registry region : String} {cache : CredCache}
    (lookup : LookupOutcome) (parse : String → Option RegistryUserCredentials)
    (h : listGet cache (region ++ "-" ++ registry) = none) :
    GetRegistryCredentials registry region cache lookup parse =
      match lookup with
      | .transportErr e => .fatal e
      | .readErr e => .fatal e
      | .body raw => .ok ((parse raw).getD ⟨"", "", ""⟩)
          (listSet cache (region ++ "-" ++ registry) ((parse raw).getD ⟨"", "", ""⟩)) true := by
  unfold GetRegistryCredentials
  dsimp only
  rw [h]

theorem credCacheHitAvoidsLookup (registry region : String) (cache : CredCache)
    (lookup lookup2 : LookupOutcome)
    (parse parse2 : String → Option RegistryUserCredentials)
    (c : RegistryUserCredentials) (cache' : CredCache) (d : Bool)
    (h : GetRegistryCredentials registry region cache lookup parse = .ok c cache' d) :
    GetRegistryCredentials registry region cache' lookup2 parse2 = .ok c cache' false ∧
      (listGet cache (region ++ "-" ++ registry) = none → d = true) := by
  obtain hc | ⟨c0, hc⟩ : listGet cache (region ++ "-" ++ registry) = none ∨
      ∃ c0, listGet cache (region ++ "-" ++ registry) = some c0 := by
    cases listGet cache (region ++ "-" ++ registry) with
    | none => exact Or.inl rfl
    | some c0 => exact Or.inr ⟨c0, rfl⟩
  · rw [GetRegistryCredentials_miss lookup parse hc] at h
    cases lookup with
    | transportErr e => simp at h
    | readErr e => simp at h
    | body raw =>
      replace h : (CredResult.ok ((parse raw).getD ⟨"", "", ""⟩)
          (listSet cache (region ++ "-" ++ registry) ((parse raw).getD ⟨"", "", ""⟩)) true)
          = .ok c cache' d := h
      cases h
      refine ⟨?_, fun _ => rfl⟩
      exact GetRegistryCredentials_hit lookup2 parse2 (listGet_listSet_self _ _ _)
  · rw [GetRegistryCredentials_hit lookup parse hc] at h
    cases h
    refine ⟨GetRegistryCredentials_hit lookup2 parse2 hc, fun hn => ?_⟩
    rw [hn] at hc
    cases hc

theorem credCacheHitAvoidsLookup_witness :
    GetRegistryCredentials "r1" "us" [("us-r1", ⟨"sk", "tok", "url"⟩)]
        (.transportErr "down") (fun _ => none) =
      .ok ⟨"sk", "tok", "url"⟩ [("us-r1", ⟨"sk", "tok", "url"⟩)] false ∧
      (listGet ([] : CredCache) ("us" ++ "-" ++ "r1") = none → true = true) :=
  credCacheHitAvoidsLookup "r1" "us" [] (.body "x") (.transportErr "down")
    (fun _ => some ⟨"sk", "tok", "url"⟩) (fun _ => none)
    ⟨"sk", "tok", "url"⟩ [("us-r1", ⟨"sk", "tok", "url"⟩)] true rfl

/-- Claim C10: the cache key is `region ++ "-" ++ registry`, which is
not injective: the distinct pairs (region "a-b", registry "c") and
(region "a", registry "b-c") share the key "a-b-c", so after resolving
the first pair, resolving the second returns the first pair's cached
credentials without any lookup (even against an unreachable network). -/
theorem credCacheKeyCollision :
    ("a-b" ++ "-" ++ "c" : String) = "a" ++ "-" ++ "b-c" ∧
      ("a-b", "c") ≠ ("a", "b-c") ∧
      GetRegistryCredentials "c" "a-b" [] (.body "resp")
          (fun _ => some ⟨"sk1", "t1", "u1"⟩) =
        .ok ⟨"sk1", "t1", "u1"⟩ [("a-b-c", ⟨"sk1", "t1", "u1"⟩)] true ∧
      GetRegistryCredentials "b-c" "a" [("a-b-c", ⟨"sk1", "t1", "u1"⟩)]
          (.transportErr "unreachable") (fun _ => none) =
        .ok ⟨"sk1", "t1", "u1"⟩ [("a-b-c", ⟨"sk1", "t1", "u1"⟩)] false :=
  ⟨rfl, by decide, rfl, rfl⟩

/-- Claim C6: the spec requires a terminal `Do` to return an HTTP
transport error verbatim with no retry and no crash. The ordinary call
builders (embedded as `bindDo`) do exactly that, but
`ProjectsLocationsRegistriesListCall.Do` (embedded as `listDo`) first
executes `io.ReadAll(res.Body)` on the nil response, so a transport
error crashes with a nil-pointer dereference instead of being
returned. -/
theorem transportErrorDoBehavior :
    bindDo (.error (.str "dial tcp: connection refused"))
        (fun _ => (.ok () : Except GoError Unit)) =
      .err (.str "dial tcp: connection refused") ∧
      listDo (.error (.str "dial tcp: connection refused"))
          (fun _ => (.ok () : Except GoError Unit)) =
        .panics "runtime error: invalid memory address or nil pointer dereference" :=
  ⟨rfl, rfl⟩

/-- Claim C5 (5-a): a list response carrying `nextPageToken` as the
JSON number `42` and one carrying it as the JSON string `"42"` both
decode to the token string `"42"` — indeed to identical response
values — and the pagination loop consequently treats them identically,
setting the next page's `pageToken` parameter to `"42"` in both
cases. The response decoding is modelled from the spec because
`gensupport.DecodeResponse` is not among the provided sources. -/
theorem nextPageTokenNormalization :
    decodeListDeviceRegistriesResponse
        (.obj [("deviceRegistries", .arr []), ("nextPageToken", .num 42)]) =
      .ok ⟨[], "42"⟩ ∧
      decodeListDeviceRegistriesResponse
          (.obj [("deviceRegistries", .arr []), ("nextPageToken", .str "42")]) =
        .ok ⟨[], "42"⟩ ∧
      ∀ (params : UrlParams) (rest : List (Except GoError ListDeviceRegistriesResponse))
        (n : Nat),
        pagesLoop (fun _ => .ok ()) params (.ok ⟨[], "42"⟩ :: rest) n =
          pagesLoop (fun _ => .ok ()) (listSet params "pageToken" "42") rest (n + 1) :=
  ⟨rfl, rfl, fun _ _ _ => rfl⟩

/-- Substring containment, for stating what an error message surfaces. -/
def containsSubstr (needle hay : String) : Prop := needle.data <:+: hay.data

/-- The error-envelope body of claim C7:
`{"error":{"code":5,"message":"not found","status":"NOT_FOUND"}}`. -/
def notFoundEnvelope : JsonVal :=
  .obj [("error", .obj [("code", .num 5), ("message", .str "not found"),
    ("status", .str "NOT_FOUND")])]

/-- Claim C7: for any non-2xx, non-304 status, a response whose body is
the `{"error":{"code":5,"message":"not found","status":"NOT_FOUND"}}`
envelope yields an error whose message contains `5`, `not found` and
`NOT_FOUND`; a non-2xx response whose body fails to unmarshal as the
envelope yields that unmarshal failure as the error. -/
theorem errorEnvelopeDecoding (st : Nat) (dec : HttpResponse → Except GoError Unit)
    (h1 : st < 200 ∨ 299 < st) (h2 : st ≠ 304) :
    (bindDo (.ok ⟨st, .ok (.ok notFoundEnvelope)⟩) dec =
        .err (.str "clearbladeiot: Error 5: not found, NOT_FOUND\n") ∧
      containsSubstr "5" "clearbladeiot: Error 5: not found, NOT_FOUND\n" ∧
      containsSubstr "not found" "clearbladeiot: Error 5: not found, NOT_FOUND\n" ∧
      containsSubstr "NOT_FOUND" "clearbladeiot: Error 5: not found, NOT_FOUND\n") ∧
    ∀ je, bindDo (.ok ⟨st, .ok (.error je)⟩) dec = .err (.str je) := by
  refine ⟨⟨?_, by unfold containsSubstr; decide, by unfold containsSubstr; decide,
    by unfold containsSubstr; decide⟩, ?_⟩
  · simp only [bindDo]
    rw [if_neg h2, if_pos h1.symm]
    rfl
  · intro je
    simp only [bindDo]
    rw [if_neg h2, if_pos h1.symm]
    rfl

theorem errorEnvelopeDecoding_witness :
    ((404 : Nat) < 200 ∨ 299 < 404) ∧ (404 : Nat) ≠ 304 ∧
      bindDo (.ok ⟨404, .ok (.ok notFoundEnvelope)⟩)
          (fun _ => (.ok () : Except GoError Unit)) =
        .err (.str "clearbladeiot: Error 5: not found, NOT_FOUND\n") ∧
      bindDo (.ok ⟨404, .ok (.error "invalid character")⟩)
          (fun _ => (.ok () : Except GoError Unit)) =
        .err (.str "invalid character") :=
  ⟨Or.inr (by decide), by decide,
    ((errorEnvelopeDecoding 404 (fun _ => .ok ()) (Or.inr (by decide)) (by decide)).1).1,
    (errorEnvelopeDecoding 404 (fun _ => .ok ()) (Or.inr (by decide)) (by decide)).2
      "invalid character"⟩

/-- Claim C8: parsing a template with two `**` segments fails with a
`ParseError` (evaluated on `"a/**/b/**"`), and no successful parse ever
carries more than one path-wildcard segment. -/
theorem duplicatePathWildcardRejected :
    parsePathTemplate "a/**/b/**" =
        .error ⟨9, "a/**/b/**", "multiple ** disallowed"⟩ ∧
      ∀ t pt, parsePathTemplate t = .ok pt → countPW pt.segments ≤ 1 :=
  ⟨rfl, fun _ _ h => (parse_inv h).1⟩

theorem duplicatePathWildcardRejected_witness :
    parsePathTemplate "a/**/b" =
        .ok ⟨[⟨.label "a", ""⟩, ⟨.pathWildcard 1, "$0"⟩, ⟨.label "b", ""⟩]⟩ ∧
      countPW [⟨.label "a", ""⟩, ⟨.pathWildcard 1, "$0"⟩, ⟨.label "b", ""⟩] ≤ 1 :=
  ⟨rfl, duplicatePathWildcardRejected.2 "a/**/b"
    ⟨[⟨.label "a", ""⟩, ⟨.pathWildcard 1, "$0"⟩, ⟨.label "b", ""⟩]⟩ rfl⟩

theorem pagesLoop_stops (f : ListDeviceRegistriesResponse → Except String Unit) :
    ∀ (pages : List (Except GoError ListDeviceRegistriesResponse)) (params : UrlParams)
      (n i : Nat), pages.findIdx (stopsAt f) = i → i < pages.length →
      ∃ out p, pagesLoop f params pages n = (out, p, n + i + 1) ∧ out ≠ .needMore := by
  intro pages
  induction pages with
  | nil =>
    intro params n i _ hlt
    simp at hlt
  | cons pg rest ih =>
    intro params n i hi hlt
    rw [List.findIdx_cons] at hi
    by_cases hs : stopsAt f pg = true
    · rw [hs, cond_true] at hi
      subst hi
      cases pg with
      | error e => exact ⟨.errDo e, params, rfl, by simp⟩
      | ok x =>
        simp only [pagesLoop]
        rcases hf : f x with fe | u
        · exact ⟨.errCallback fe, params, by simp, by simp⟩
        · have htok : x.nextPageToken = "" := by
            simp only [stopsAt] at hs
            rw [hf] at hs
            simpa using hs
          exact ⟨.done, params, by simp [htok], by simp⟩
    · have hs2 : stopsAt f pg = false := by
        revert hs
        cases stopsAt f pg <;> simp
      rw [hs2, cond_false] at hi
      cases pg with
      | error e => exact absurd (by simp [stopsAt]) hs
      | ok x =>
        rcases hf : f x with fe | u
        · exact absurd (by simp [stopsAt, hf]) hs
        · have htok : ¬(x.nextPageToken = "") := by
            intro hc
            exact hs (by simp [stopsAt, hf, hc])
          obtain ⟨j, rfl⟩ : ∃ j, i = j + 1 := ⟨List.findIdx (stopsAt f) rest, hi.symm⟩
          have hj : List.findIdx (stopsAt f) rest = j := by omega
          have hjlt : j < rest.length := by
            simp only [List.length_cons] at hlt
            omega
          obtain ⟨out, p, hloop, hout⟩ := ih (listSet params "pageToken" x.nextPageToken)
            (n + 1) j hj hjlt
          refine ⟨out, p, ?_, hout⟩
          simp only [pagesLoop]
          rw [hf, if_neg htok]
          rw [show n + (j + 1) + 1 = n + 1 + j + 1 from by omega]
          exact hloop

/-- Claim C9: over any delivered sequence of page results, `Pages`
stops at the first page result that is a `Do` error, a callback error,
or a page with an empty continuation token — issuing exactly that many
requests and no further one — and on return the call builder's
`pageToken` query parameter equals its value from before the
invocation. -/
theorem pagesTermination (f : ListDeviceRegistriesResponse → Except String Unit)
    (pages : List (Except GoError ListDeviceRegistriesResponse)) (params0 : UrlParams)
    (i : Nat) (hi : pages.findIdx (stopsAt f) = i) (hlt : i < pages.length) :
    (∃ out p, Pages f params0 pages = (out, p, i + 1) ∧ out ≠ .needMore) ∧
      UrlParams.get (Pages f params0 pages).2.1 "pageToken" =
        UrlParams.get params0 "pageToken" := by
  obtain ⟨out, p, hloop, hout⟩ := pagesLoop_stops f pages params0 0 i hi hlt
  constructor
  · refine ⟨out, listSet p "pageToken" (UrlParams.get params0 "pageToken"), ?_, hout⟩
    simp only [Pages]
    rw [hloop]
    simp
  · simp only [Pages]
    rw [hloop]
    simp only [UrlParams.get]
    rw [listGet_listSet_self]
    rfl

theorem pagesTermination_witness :
    List.findIdx (stopsAt (fun _ => .ok ())) [Except.ok ⟨[], ""⟩] = 0 ∧
      (0 : Nat) < 1 ∧
      (∃ out p, Pages (fun _ => .ok ()) [("pageToken", "orig")] [.ok ⟨[], ""⟩] =
        (out, p, 0 + 1) ∧ out ≠ .needMore) ∧
      UrlParams.get (Pages (fun _ => .ok ()) [("pageToken", "orig")] [.ok ⟨[], ""⟩]).2.1
          "pageToken" =
        UrlParams.get [("pageToken", "orig")] "pageToken" :=
  ⟨rfl, by decide,
    (pagesTermination (fun _ => .ok ()) [.ok ⟨[], ""⟩] [("pageToken", "orig")] 0 rfl
      (by decide)).1,
    (pagesTermination (fun _ => .ok ()) [.ok ⟨[], ""⟩] [("pageToken", "orig")] 0 rfl
      (by decide)).2⟩

theorem matchLoop_trailing_pw_nil (x : String) (vs : Values) :
    matchLoop [⟨Matcher.pathWildcard 0, x⟩] [] vs =
      .error "not sufficient segments are supplied for path wildcard" := rfl

theorem matchLoop_trailing_pw (x : String) (rest : List String) (vs : Values)
    (hx : x ≠ "") (hne : rest ≠ []) :
    matchLoop [⟨Matcher.pathWildcard 0, x⟩] rest vs =
      .ok (updateVal vs x (joinSlash rest)) := by
  rw [matchLoop_cons]
  have hms : (Matcher.pathWildcard 0).matchSegs rest = .ok rest.length := by
    simp only [Matcher.matchSegs]
    rw [if_neg (by
      cases rest with
      | nil => exact absurd rfl hne
      | cons a as => simp)]
    rw [Nat.sub_zero]
  rw [hms]
  show matchLoop [] (List.drop rest.length rest)
      (if x = "" then vs else updateVal vs x (joinSlash (List.take rest.length rest))) =
    .ok (updateVal vs x (joinSlash rest))
  rw [List.drop_length, List.take_length, if_neg hx]
  rfl

/-- Claim C4: after parsing, every path-wildcard segment's consumed
length equals the total segment count minus its position minus one; and
for a parsed template ending in a `**` segment bound to variable `x`
(with `x` not bound by the fixed segments before it), `Match` binds `x`
to exactly the trailing path segments left after those fixed segments
are consumed, joined by `/` — at least one — and fails whenever none
remain. -/
theorem trailingPathWildcardArity (t : String) (pt : PathTemplate)
    (hparse : parsePathTemplate t = .ok pt) :
    (∀ i seg, pt.segments[i]? = some seg → ∀ k, seg.matcher = .pathWildcard k →
      k = pt.segments.length - i - 1) ∧
    ∀ pre x, pt.segments = pre ++ [⟨.pathWildcard 0, x⟩] →
      (∀ seg ∈ pre, seg.name ≠ x) →
      ∀ path rest vs1, consumeLoop pre (splitSlash path) [] = .ok (rest, vs1) →
        ((rest = [] → pt.Match path =
            .error "not sufficient segments are supplied for path wildcard") ∧
          (rest ≠ [] → ∃ b, pt.Match path = .ok b ∧
            listGet b x = some (joinSlash rest) ∧ 1 ≤ rest.length)) := by
  obtain ⟨hc1, hul, hlen⟩ := parse_inv hparse
  refine ⟨hlen, ?_⟩
  intro pre x hsegs hnames path rest vs1 hcl
  have hx : x ≠ "" := by
    intro hxe
    have hmem : (⟨Matcher.pathWildcard 0, x⟩ : Segment) ∈ pt.segments := by
      rw [hsegs]
      exact List.mem_append.mpr (Or.inr (List.mem_cons_self _ _))
    obtain ⟨l, hl⟩ := hul _ hmem hxe
    simp at hl
  have hM : pt.Match path = matchLoop [⟨Matcher.pathWildcard 0, x⟩] rest vs1 := by
    show matchLoop pt.segments (splitSlash path) [] = _
    rw [hsegs, matchLoop_append, hcl]
  constructor
  · intro hrest
    subst hrest
    rw [hM, matchLoop_trailing_pw_nil]
  · intro hrest
    have hlen1 : 1 ≤ rest.length := by
      cases rest with
      | nil => exact absurd rfl hrest
      | cons a as => simp
    refine ⟨updateVal vs1 x (joinSlash rest), ?_, ?_, hlen1⟩
    · rw [hM, matchLoop_trailing_pw x rest vs1 hx hrest]
    · have hvs1 : listGet vs1 x = none := consumeLoop_listGet hcl x hnames
      rw [listGet_updateVal_self, hvs1]
      rfl

theorem trailingPathWildcardArity_witness :
    parsePathTemplate "a/**" = .ok ⟨[⟨.label "a", ""⟩, ⟨.pathWildcard 0, "$0"⟩]⟩ ∧
      consumeLoop [⟨.label "a", ""⟩] (splitSlash "a/b/c") [] = .ok (["b", "c"], []) ∧
      (∃ b, PathTemplate.Match ⟨[⟨.label "a", ""⟩, ⟨.pathWildcard 0, "$0"⟩]⟩ "a/b/c" =
          .ok b ∧ listGet b "$0" = some (joinSlash ["b", "c"]) ∧
          1 ≤ (["b", "c"] : List String).length) :=
  ⟨rfl, rfl,
    ((trailingPathWildcardArity "a/**" ⟨[⟨.label "a", ""⟩, ⟨.pathWildcard 0, "$0"⟩]⟩
        rfl).2 [⟨.label "a", ""⟩] "$0" rfl (by decide) "a/b/c" ["b", "c"] [] rfl).2
      (by decide)⟩

/-- Claim C1 counterexample: the template `"{$0}/a/*"` parses, contains
no `**` segment, and `Match` accepts the path `"p/a/q"`, yet `Render`
on the bindings returned by `Match` yields `"p/q/a/p/q"`, not the
original path: the handwritten variable `$0` collides with the
auto-generated name of the trailing bare `*`, so the two same-named
segments are separated and the combined binding is emitted twice. -/
theorem roundTripCounterexample :
    parsePathTemplate "{$0}/a/*" =
        .ok ⟨[⟨.wildcard, "$0"⟩, ⟨.label "a", ""⟩, ⟨.wildcard, "$0"⟩]⟩ ∧
      countPW [⟨.wildcard, "$0"⟩, ⟨.label "a", ""⟩, ⟨.wildcard, "$0"⟩] = 0 ∧
      PathTemplate.Match ⟨[⟨.wildcard, "$0"⟩, ⟨.label "a", ""⟩, ⟨.wildcard, "$0"⟩]⟩
          "p/a/q" = .ok [("$0", "p/q")] ∧
      PathTemplate.Render ⟨[⟨.wildcard, "$0"⟩, ⟨.label "a", ""⟩, ⟨.wildcard, "$0"⟩]⟩
          [("$0", "p/q")] = .ok "p/q/a/p/q" ∧
      ("p/q/a/p/q" : String) ≠ "p/a/q" :=
  ⟨rfl, rfl, rfl, rfl, by decide⟩

/-- Claim C1, amended: for every parsed template containing no `**`
segment in which each variable name occupies a single consecutive run
of segments (`runUniqueB` — which parsing guarantees except when a
handwritten variable name collides with an auto-generated `$n`
wildcard name), `Render` applied to the bindings returned by a
successful `Match` reproduces the original path exactly. -/
theorem roundTripNoPathWildcard (t : String) (pt : PathTemplate)
    (hparse : parsePathTemplate t = .ok pt)
    (hnopw : countPW pt.segments = 0)
    (hrun : runUniqueB pt.segments = true)
    (path : String) (b : Values) (hmatch : pt.Match path = .ok b) :
    pt.Render b = .ok path := by
  obtain ⟨pieces, hr, hj, hiff⟩ := roundTripAux pt.segments.length pt.segments le_rfl
    (countPW_zero_no_PW hnopw) (parse_inv hparse).2.1 hrun
    (splitSlash path) [] b "" (fun _ _ _ => rfl) (Or.inl rfl) hmatch
  show (match renderLoop pt.segments b "" with
        | .error e => .error e
        | .ok pieces => .ok (joinSlash pieces) : Except String String) = .ok path
  rw [hr]
  show (Except.ok (joinSlash pieces) : Except String String) = .ok path
  rw [hj, joinSlash_splitSlash]

theorem roundTripNoPathWildcard_witness :
    parsePathTemplate "x/{y}" = .ok ⟨[⟨.label "x", ""⟩, ⟨.wildcard, "y"⟩]⟩ ∧
      countPW [⟨.label "x", ""⟩, ⟨.wildcard, "y"⟩] = 0 ∧
      runUniqueB [⟨.label "x", ""⟩, ⟨.wildcard, "y"⟩] = true ∧
      PathTemplate.Match ⟨[⟨.label "x", ""⟩, ⟨.wildcard, "y"⟩]⟩ "x/v" =
        .ok [("y", "v")] ∧
      PathTemplate.Render ⟨[⟨.label "x", ""⟩, ⟨.wildcard, "y"⟩]⟩ [("y", "v")] =
        .ok "x/v" :=
  ⟨rfl, rfl, by simp [runUniqueB], rfl,
    roundTripNoPathWildcard "x/{y}" ⟨[⟨.label "x", ""⟩, ⟨.wildcard, "y"⟩]⟩ rfl rfl
      (by simp [runUniqueB]) "x/v" [("y", "v")] rfl⟩

end GoIot
